import Mathlib

set_option maxHeartbeats 1000000

/-!
Shallow embedding of the Sudoku solver core of src/sudoko.py:
get_possible_numbers, solve_sudoku (with its inner backtrack), and
is_valid_initial_sudoku, together with the specification predicates
(validity, completion, possibility-state invariant) and the theorems
settling the claims about them.
-/

/-- A 9×9 grid of naturals; 0 means the cell is empty. -/
abbrev Grid := Fin 9 → Fin 9 → Nat

/-- Write value v into cell (r, c); models the assignment grid[r][c] = v. -/
def setCell (g : Grid) (r c : Fin 9) (v : Nat) : Grid :=
  fun r' c' => if r' = r ∧ c' = c then v else g r' c'

/-- Box index of a cell: (row // 3) * 3 + col // 3, as computed in backtrack. -/
def boxIndex (r c : Fin 9) : Fin 9 :=
  ⟨r.val / 3 * 3 + c.val / 3, by have hr := r.isLt; have hc := c.isLt; omega⟩

/-- The set of cells of row r. -/
def rowCells (r : Fin 9) : Finset (Fin 9 × Fin 9) :=
  Finset.image (fun c => (r, c)) Finset.univ

/-- The set of cells of column c. -/
def colCells (c : Fin 9) : Finset (Fin 9 × Fin 9) :=
  Finset.image (fun r => (r, c)) Finset.univ

/-- The cell of box b at offset (i, j): row (b//3)*3+i, column (b%3)*3+j,
as enumerated by the box loops of the source. -/
def boxCell (b : Fin 9) (q : Fin 3 × Fin 3) : Fin 9 × Fin 9 :=
  (⟨b.val / 3 * 3 + q.1.val, by have hb := b.isLt; have hq := q.1.isLt; omega⟩,
   ⟨b.val % 3 * 3 + q.2.val, by have hb := b.isLt; have hq := q.2.isLt; omega⟩)

/-- The set of cells of box b. -/
def boxCells (b : Fin 9) : Finset (Fin 9 × Fin 9) :=
  Finset.image (boxCell b) Finset.univ

/-- Values present in the cells S of grid g (as the Python set(...) built over
those cells; it contains 0 whenever S has an empty cell). -/
def valsOn (g : Grid) (S : Finset (Fin 9 × Fin 9)) : Finset Nat :=
  S.image fun p => g p.1 p.2

/-- all_numbers = set(range(1, 10)). -/
def allNumbers : Finset Nat := Finset.Icc 1 9

/-- Possibility state: rows_possible, cols_possible, boxes_possible. -/
structure PState where
  rows : Fin 9 → Finset Nat
  cols : Fin 9 → Finset Nat
  boxes : Fin 9 → Finset Nat

/-- get_possible_numbers: for each row, column and box, the set
all_numbers minus the values present there. -/
def get_possible_numbers (g : Grid) : PState where
  rows := fun r => allNumbers \ valsOn g (rowCells r)
  cols := fun c => allNumbers \ valsOn g (colCells c)
  boxes := fun b => allNumbers \ valsOn g (boxCells b)

/-- Python set.remove: fails (KeyError) when v is absent. -/
def sremove (t : Finset Nat) (v : Nat) : Option (Finset Nat) :=
  if v ∈ t then some (t.erase v) else none

/-- The three set.remove calls performed when the solver places v at (r, c). -/
def place (s : PState) (r c : Fin 9) (v : Nat) : Option PState :=
  match sremove (s.rows r) v, sremove (s.cols c) v, sremove (s.boxes (boxIndex r c)) v with
  | some rs, some cs, some bs =>
    some ⟨Function.update s.rows r rs, Function.update s.cols c cs,
          Function.update s.boxes (boxIndex r c) bs⟩
  | _, _, _ => none

/-- The three set.add calls performed when the solver undoes placing v at (r, c). -/
def unplace (s : PState) (r c : Fin 9) (v : Nat) : PState :=
  ⟨Function.update s.rows r (insert v (s.rows r)),
   Function.update s.cols c (insert v (s.cols c)),
   Function.update s.boxes (boxIndex r c) (insert v (s.boxes (boxIndex r c)))⟩

/-- candidates = rows_possible[row] & cols_possible[col] & boxes_possible[box_index]. -/
def candidates (s : PState) (r c : Fin 9) : Finset Nat :=
  s.rows r ∩ s.cols c ∩ s.boxes (boxIndex r c)

/-- The candidate digits as the list the inner loop iterates over. -/
def candList (s : PState) (r c : Fin 9) : List Nat :=
  (candidates s r c).sort (· ≤ ·)

/-- Row-major list of all 81 cells, as product(range(9), repeat=2). -/
def cellList : List (Fin 9 × Fin 9) :=
  (List.finRange 9).flatMap fun r => (List.finRange 9).map fun c => (r, c)

/-- The first empty cell in row-major order, if any. -/
def firstEmpty (g : Grid) : Option (Fin 9 × Fin 9) :=
  cellList.find? fun p => g p.1 p.2 == 0

/-- Number of empty cells of the grid. -/
def numEmpty (g : Grid) : Nat :=
  (Finset.univ.filter fun p : Fin 9 × Fin 9 => g p.1 p.2 = 0).card

/-- Abnormal outcomes of the embedded search: running out of fuel
(never happens, see the termination theorem) and the KeyError that
set.remove would raise on a missing element (never happens either). -/
inductive SErr where
  | fuelOut : SErr
  | keyError : SErr
deriving DecidableEq

/-- The inner for-num loop of backtrack over the remaining candidate digits:
place the digit, recurse, and on failure undo the placement (on the grid and
state the recursive call left behind) and try the next digit. -/
def tryCandidates (bt : Grid → PState → Except SErr (Bool × Grid × PState))
    (r c : Fin 9) : Grid → PState → List Nat → Except SErr (Bool × Grid × PState)
  | g, s, [] => Except.ok (false, g, s)
  | g, s, v :: rest =>
    match place s r c v with
    | none => Except.error SErr.keyError
    | some s1 =>
      match bt (setCell g r c v) s1 with
      | Except.error e => Except.error e
      | Except.ok (true, g2, s2) => Except.ok (true, g2, s2)
      | Except.ok (false, g2, s2) =>
        tryCandidates bt r c (setCell g2 r c 0) (unplace s2 r c v) rest

/-- The recursive backtrack procedure, indexed by fuel bounding the recursion
depth: find the first empty cell; if none, succeed; otherwise try each
candidate digit for it. -/
def backtrack : Nat → Grid → PState → Except SErr (Bool × Grid × PState)
  | 0, _, _ => Except.error SErr.fuelOut
  | fuel + 1, g, s =>
    match firstEmpty g with
    | none => Except.ok (true, g, s)
    | some p => tryCandidates (backtrack fuel) p.1 p.2 g s (candList s p.1 p.2)

/-- solve_sudoku: build the possibility state and run backtrack. Fuel 82
exceeds the 81 possible empty cells, so it is never exhausted. The returned
grid models the in-place mutation of the Python grid argument. -/
def solve_sudoku (g : Grid) : Except SErr (Bool × Grid) :=
  (backtrack 82 g (get_possible_numbers g)).map fun x => (x.1, x.2.1)

/-- The non-zero entries of row i, as the source's row_nums list. -/
def rowNums (g : Grid) (i : Fin 9) : List Nat :=
  ((List.finRange 9).map fun j => g i j).filter fun n => n != 0

/-- The non-zero entries of column j, as the source's col_nums list. -/
def colNums (g : Grid) (j : Fin 9) : List Nat :=
  ((List.finRange 9).map fun i => g i j).filter fun n => n != 0

/-- The non-zero entries of box b, as the source's nums list. -/
def boxNums (g : Grid) (b : Fin 9) : List Nat :=
  (((List.finRange 3).flatMap fun i => (List.finRange 3).map fun j => (i, j)).map
    fun q => g (boxCell b q).1 (boxCell b q).2).filter fun n => n != 0

/-- len(nums) == len(set(nums)), the duplicate test used by the source. -/
def nodupCheck (l : List Nat) : Bool := l.dedup.length == l.length

/-- is_valid_initial_sudoku: every row, column and box passes the duplicate test. -/
def is_valid_initial_sudoku (g : Grid) : Bool :=
  ((List.finRange 9).all fun i => nodupCheck (rowNums g i)) &&
  ((List.finRange 9).all fun j => nodupCheck (colNums g j)) &&
  ((List.finRange 9).all fun b => nodupCheck (boxNums g b))

/-! Specification predicates. -/

/-- Every entry of the grid is an integer in {0..9}. -/
def InRange (g : Grid) : Prop := ∀ r c, g r c ≤ 9

/-- The non-zero values at the cells S are pairwise distinct. -/
def NodupOn (g : Grid) (S : Finset (Fin 9 × Fin 9)) : Prop :=
  ∀ p ∈ S, ∀ q ∈ S, g p.1 p.2 ≠ 0 → g p.1 p.2 = g q.1 q.2 → p = q

/-- No row, column or box of the grid repeats a non-zero digit. -/
def ValidG (g : Grid) : Prop :=
  (∀ r, NodupOn g (rowCells r)) ∧ (∀ c, NodupOn g (colCells c)) ∧
  (∀ b, NodupOn g (boxCells b))

/-- t completes g: it agrees with g on every non-zero cell, fills every cell
with a digit 1-9, and satisfies the row, column and box uniqueness constraints. -/
def Completion (g t : Grid) : Prop :=
  (∀ r c, g r c ≠ 0 → t r c = g r c) ∧ (∀ r c, t r c ∈ allNumbers) ∧ ValidG t

/-- The possibility state is exactly what get_possible_numbers would build
from the current grid. -/
def StateInv (g : Grid) (s : PState) : Prop :=
  (∀ r, s.rows r = allNumbers \ valsOn g (rowCells r)) ∧
  (∀ c, s.cols c = allNumbers \ valsOn g (colCells c)) ∧
  (∀ b, s.boxes b = allNumbers \ valsOn g (boxCells b))

/-- Every possibility set is a set of digits 1-9. -/
def SubAll (s : PState) : Prop :=
  (∀ r, s.rows r ⊆ allNumbers) ∧ (∀ c, s.cols c ⊆ allNumbers) ∧
  (∀ b, s.boxes b ⊆ allNumbers)

/-- The search invariant as the spec states it: the value of a filled cell is
absent from its three possibility sets, and a digit is in all three sets of an
empty cell exactly when placing it there violates no constraint of the
current grid. -/
def SearchInvariant (g : Grid) (s : PState) : Prop :=
  (∀ r c, g r c ≠ 0 →
    g r c ∉ s.rows r ∧ g r c ∉ s.cols c ∧ g r c ∉ s.boxes (boxIndex r c)) ∧
  (∀ r c v, g r c = 0 → v ∈ allNumbers →
    ((v ∈ s.rows r ∧ v ∈ s.cols c ∧ v ∈ s.boxes (boxIndex r c)) ↔
      (v ∉ valsOn g (rowCells r) ∧ v ∉ valsOn g (colCells c) ∧
        v ∉ valsOn g (boxCells (boxIndex r c)))))

/-! Concrete grids and states used to instantiate the theorems. -/

/-- Build a concrete grid from a list of rows (missing entries are 0). -/
def mkGrid (l : List (List Nat)) : Grid := fun r c => (l.getD r.val []).getD c.val 0

/-- The all-empty grid. -/
def demoZero : Grid := fun _ _ => 0

/-- A fully solved valid grid. -/
def demoSolved : Grid := fun r c => (3 * r.val + r.val / 3 + c.val) % 9 + 1

/-- A grid on which the search fails at once: cell (0,8) has no candidate. -/
def demoFail : Grid := mkGrid [[1, 2, 3, 4, 5, 6, 7, 8, 0], [0, 0, 0, 0, 0, 0, 0, 0, 9]]

/-- The possibility state built from the empty grid. -/
def demoState : PState := get_possible_numbers demoZero

/-- The state demoState after placing digit 1 at cell (0,0). -/
def demoState1 : PState :=
  ⟨Function.update demoState.rows 0 ((demoState.rows 0).erase 1),
   Function.update demoState.cols 0 ((demoState.cols 0).erase 1),
   Function.update demoState.boxes (boxIndex 0 0) ((demoState.boxes (boxIndex 0 0)).erase 1)⟩

/-! Basic lemmas. -/

theorem setCell_same (g : Grid) (r c : Fin 9) (v : Nat) : setCell g r c v r c = v := by
  simp [setCell]

theorem setCell_other (g : Grid) (r c : Fin 9) (v : Nat) {r' c' : Fin 9}
    (h : ¬(r' = r ∧ c' = c)) : setCell g r c v r' c' = g r' c' := by
  simp only [setCell]
  exact if_neg h

theorem setCell_setCell (g : Grid) (r c : Fin 9) (v w : Nat) :
    setCell (setCell g r c v) r c w = setCell g r c w := by
  funext r' c'
  by_cases h : r' = r ∧ c' = c
  · simp [setCell, h]
  · simp only [setCell, if_neg h]

theorem setCell_self (g : Grid) (r c : Fin 9) (v : Nat) (h : g r c = v) :
    setCell g r c v = g := by
  funext r' c'
  by_cases hh : r' = r ∧ c' = c
  · obtain ⟨rfl, rfl⟩ := hh
    simp [setCell, h]
  · simp only [setCell, if_neg hh]

theorem mem_rowCells {p : Fin 9 × Fin 9} {r : Fin 9} : p ∈ rowCells r ↔ p.1 = r := by
  constructor
  · intro h
    obtain ⟨c, -, rfl⟩ := Finset.mem_image.mp h
    rfl
  · intro h
    exact Finset.mem_image.mpr ⟨p.2, Finset.mem_univ _, by cases p; cases h; rfl⟩

theorem mem_colCells {p : Fin 9 × Fin 9} {c : Fin 9} : p ∈ colCells c ↔ p.2 = c := by
  constructor
  · intro h
    obtain ⟨r, -, rfl⟩ := Finset.mem_image.mp h
    rfl
  · intro h
    exact Finset.mem_image.mpr ⟨p.1, Finset.mem_univ _, by cases p; cases h; rfl⟩

theorem boxIndex_boxCell (b : Fin 9) (q : Fin 3 × Fin 3) :
    boxIndex (boxCell b q).1 (boxCell b q).2 = b := by
  apply Fin.ext
  have hb := b.isLt
  have h1 := q.1.isLt
  have h2 := q.2.isLt
  simp only [boxIndex, boxCell]
  omega

theorem mem_boxCells {p : Fin 9 × Fin 9} {b : Fin 9} :
    p ∈ boxCells b ↔ boxIndex p.1 p.2 = b := by
  constructor
  · intro h
    obtain ⟨q, -, rfl⟩ := Finset.mem_image.mp h
    exact boxIndex_boxCell b q
  · intro h
    have hb := b.isLt
    have h1 := p.1.isLt
    have h2 := p.2.isLt
    have hv : p.1.val / 3 * 3 + p.2.val / 3 = b.val := by
      have := congrArg Fin.val h
      simpa [boxIndex] using this
    refine Finset.mem_image.mpr ⟨(⟨p.1.val % 3, by omega⟩, ⟨p.2.val % 3, by omega⟩),
      Finset.mem_univ _, ?_⟩
    have : (boxCell b (⟨p.1.val % 3, by omega⟩, ⟨p.2.val % 3, by omega⟩)).1 = p.1 ∧
        (boxCell b (⟨p.1.val % 3, by omega⟩, ⟨p.2.val % 3, by omega⟩)).2 = p.2 := by
      constructor
      · apply Fin.ext
        simp only [boxCell]
        omega
      · apply Fin.ext
        simp only [boxCell]
        omega
    cases p
    exact Prod.ext this.1 this.2

theorem cell_mem_rowCells (r c : Fin 9) : (r, c) ∈ rowCells r := mem_rowCells.mpr rfl

theorem cell_mem_colCells (r c : Fin 9) : (r, c) ∈ colCells c := mem_colCells.mpr rfl

theorem cell_mem_boxCells (r c : Fin 9) : (r, c) ∈ boxCells (boxIndex r c) :=
  mem_boxCells.mpr rfl

theorem mem_cellList (p : Fin 9 × Fin 9) : p ∈ cellList := by
  simp only [cellList, List.mem_flatMap, List.mem_map]
  exact ⟨p.1, by simp, p.2, by simp, by cases p; rfl⟩

theorem firstEmpty_some {g : Grid} {p : Fin 9 × Fin 9} (h : firstEmpty g = some p) :
    g p.1 p.2 = 0 := by
  have := List.find?_some h
  simpa using this

theorem firstEmpty_none {g : Grid} (h : firstEmpty g = none) : ∀ r c, g r c ≠ 0 := by
  intro r c
  have := List.find?_eq_none.mp h (r, c) (mem_cellList _)
  simpa using this

theorem numEmpty_le (g : Grid) : numEmpty g ≤ 81 :=
  le_trans (Finset.card_filter_le _ _) (by simp)

theorem numEmpty_setCell_lt {g : Grid} {r c : Fin 9} {v : Nat}
    (h0 : g r c = 0) (hv : v ≠ 0) : numEmpty (setCell g r c v) < numEmpty g := by
  classical
  have hmem : (r, c) ∈ Finset.univ.filter fun p : Fin 9 × Fin 9 => g p.1 p.2 = 0 := by
    simp [Finset.mem_filter, h0]
  have hset : (Finset.univ.filter fun p : Fin 9 × Fin 9 => setCell g r c v p.1 p.2 = 0) =
      (Finset.univ.filter fun p : Fin 9 × Fin 9 => g p.1 p.2 = 0).erase (r, c) := by
    ext ⟨a, b⟩
    simp only [Finset.mem_filter, Finset.mem_erase, Finset.mem_univ, true_and]
    by_cases hab : a = r ∧ b = c
    · obtain ⟨rfl, rfl⟩ := hab
      simp [setCell_same, hv]
    · rw [setCell_other g r c v hab]
      have : (a, b) ≠ (r, c) := by
        intro he
        exact hab ⟨congrArg Prod.fst he, congrArg Prod.snd he⟩
      simp [this]
  have hpos : 0 < (Finset.univ.filter fun p : Fin 9 × Fin 9 => g p.1 p.2 = 0).card :=
    Finset.card_pos.mpr ⟨(r, c), hmem⟩
  unfold numEmpty
  rw [hset, Finset.card_erase_of_mem hmem]
  omega

theorem mem_candList {s : PState} {r c : Fin 9} {v : Nat} :
    v ∈ candList s r c ↔ v ∈ s.rows r ∧ v ∈ s.cols c ∧ v ∈ s.boxes (boxIndex r c) := by
  simp [candList, Finset.mem_sort, candidates, Finset.mem_inter, and_assoc]

theorem place_eq_some {s : PState} {r c : Fin 9} {v : Nat} {s1 : PState}
    (h : place s r c v = some s1) :
    v ∈ s.rows r ∧ v ∈ s.cols c ∧ v ∈ s.boxes (boxIndex r c) ∧
    s1 = ⟨Function.update s.rows r ((s.rows r).erase v),
          Function.update s.cols c ((s.cols c).erase v),
          Function.update s.boxes (boxIndex r c) ((s.boxes (boxIndex r c)).erase v)⟩ := by
  by_cases h1 : v ∈ s.rows r
  · by_cases h2 : v ∈ s.cols c
    · by_cases h3 : v ∈ s.boxes (boxIndex r c)
      · simp only [place, sremove, if_pos h1, if_pos h2, if_pos h3,
          Option.some.injEq] at h
        exact ⟨h1, h2, h3, h.symm⟩
      · simp [place, sremove, if_pos h1, if_pos h2, if_neg h3] at h
    · simp [place, sremove, if_pos h1, if_neg h2] at h
  · simp [place, sremove, if_neg h1] at h

theorem place_of_mem {s : PState} {r c : Fin 9} {v : Nat}
    (h1 : v ∈ s.rows r) (h2 : v ∈ s.cols c) (h3 : v ∈ s.boxes (boxIndex r c)) :
    place s r c v =
      some ⟨Function.update s.rows r ((s.rows r).erase v),
            Function.update s.cols c ((s.cols c).erase v),
            Function.update s.boxes (boxIndex r c) ((s.boxes (boxIndex r c)).erase v)⟩ := by
  simp [place, sremove, if_pos h1, if_pos h2, if_pos h3]

theorem unplace_place {s : PState} {r c : Fin 9} {v : Nat} {s1 : PState}
    (h : place s r c v = some s1) : unplace s1 r c v = s := by
  obtain ⟨h1, h2, h3, rfl⟩ := place_eq_some h
  obtain ⟨sr, sc, sb⟩ := s
  simp only [unplace, PState.mk.injEq, Function.update_same, Function.update_idem]
  refine ⟨?_, ?_, ?_⟩
  · rw [Finset.insert_erase h1, Function.update_eq_self]
  · rw [Finset.insert_erase h2, Function.update_eq_self]
  · rw [Finset.insert_erase h3, Function.update_eq_self]


/-! Lemmas about the values present in a region and their interaction with
cell updates. -/

theorem pair_eq {p : Fin 9 × Fin 9} {r c : Fin 9} (h1 : p.1 = r) (h2 : p.2 = c) :
    p = (r, c) := by
  obtain ⟨a, b⟩ := p
  cases h1
  cases h2
  rfl

theorem mem_valsOn_of_mem {g : Grid} {S : Finset (Fin 9 × Fin 9)} {p : Fin 9 × Fin 9}
    (h : p ∈ S) : g p.1 p.2 ∈ valsOn g S :=
  Finset.mem_image.mpr ⟨p, h, rfl⟩

theorem valsOn_setCell_not_mem {g : Grid} {S : Finset (Fin 9 × Fin 9)} {r c : Fin 9}
    {v : Nat} (h : (r, c) ∉ S) : valsOn (setCell g r c v) S = valsOn g S := by
  unfold valsOn
  apply Finset.image_congr
  intro p hp
  apply setCell_other
  intro hpc
  apply h
  rw [pair_eq hpc.1 hpc.2] at hp
  exact Finset.mem_coe.mp hp

theorem valsOn_insert_of_mem (g : Grid) {S : Finset (Fin 9 × Fin 9)} {r c : Fin 9}
    (h : (r, c) ∈ S) : valsOn g S = insert (g r c) (valsOn g (S.erase (r, c))) := by
  conv_lhs => rw [← Finset.insert_erase h]
  simp only [valsOn, Finset.image_insert]

theorem erase_sdiff_valsOn_setCell {g : Grid} {S : Finset (Fin 9 × Fin 9)} {r c : Fin 9}
    {v : Nat} (hmem : (r, c) ∈ S) (h0 : g r c = 0) :
    (allNumbers \ valsOn g S).erase v = allNumbers \ valsOn (setCell g r c v) S := by
  have hX : valsOn g S = insert 0 (valsOn g (S.erase (r, c))) := by
    have hh := valsOn_insert_of_mem g hmem
    rwa [h0] at hh
  have hX' : valsOn (setCell g r c v) S = insert v (valsOn g (S.erase (r, c))) := by
    rw [valsOn_insert_of_mem (setCell g r c v) hmem, setCell_same,
      valsOn_setCell_not_mem (Finset.not_mem_erase _ _)]
  ext d
  simp only [hX, hX', Finset.mem_erase, Finset.mem_sdiff, Finset.mem_insert, not_or,
    allNumbers, Finset.mem_Icc]
  constructor
  · rintro ⟨hdv, hd, -, hdX⟩
    exact ⟨hd, hdv, hdX⟩
  · rintro ⟨hd, hdv, hdX⟩
    exact ⟨hdv, hd, by omega, hdX⟩

theorem insert_sdiff_valsOn_setCell_zero {g : Grid} {S : Finset (Fin 9 × Fin 9)}
    {r c : Fin 9} {v : Nat} (hmem : (r, c) ∈ S) (hval : g r c = v) (hv : v ∈ allNumbers)
    (hnot : v ∉ valsOn g (S.erase (r, c))) :
    insert v (allNumbers \ valsOn g S) = allNumbers \ valsOn (setCell g r c 0) S := by
  have hX : valsOn g S = insert v (valsOn g (S.erase (r, c))) := by
    have hh := valsOn_insert_of_mem g hmem
    rwa [hval] at hh
  have hX0 : valsOn (setCell g r c 0) S = insert 0 (valsOn g (S.erase (r, c))) := by
    rw [valsOn_insert_of_mem (setCell g r c 0) hmem, setCell_same,
      valsOn_setCell_not_mem (Finset.not_mem_erase _ _)]
  have hvb : 1 ≤ v ∧ v ≤ 9 := Finset.mem_Icc.mp hv
  ext d
  simp only [hX, hX0, Finset.mem_insert, Finset.mem_sdiff, not_or, allNumbers,
    Finset.mem_Icc]
  constructor
  · rintro (rfl | ⟨hd, hdv, hdX⟩)
    · exact ⟨⟨hvb.1, hvb.2⟩, by omega, hnot⟩
    · exact ⟨hd, by omega, hdX⟩
  · rintro ⟨hd, -, hdX⟩
    by_cases hdv : d = v
    · exact Or.inl hdv
    · exact Or.inr ⟨hd, hdv, hdX⟩

theorem not_mem_valsOn_erase {g : Grid} {S : Finset (Fin 9 × Fin 9)} {r c : Fin 9}
    (hS : NodupOn g S) (hmem : (r, c) ∈ S) (hne : g r c ≠ 0) :
    g r c ∉ valsOn g (S.erase (r, c)) := by
  intro hm
  obtain ⟨q, hq, hgq⟩ := Finset.mem_image.mp hm
  have hq1 := (Finset.mem_erase.mp hq).1
  have hq2 := (Finset.mem_erase.mp hq).2
  exact hq1 (hS q hq2 (r, c) hmem (by rw [hgq]; exact hne) (by rw [hgq]))

/-! Preservation of the specification invariants under placing and unplacing. -/

theorem nodupOn_setCell_not_mem {g : Grid} {S : Finset (Fin 9 × Fin 9)} {r c : Fin 9}
    {v : Nat} (h : (r, c) ∉ S) (hS : NodupOn g S) : NodupOn (setCell g r c v) S := by
  intro p hp q hq hne heq
  have hp' : ¬(p.1 = r ∧ p.2 = c) := by
    intro hh
    rw [pair_eq hh.1 hh.2] at hp
    exact h hp
  have hq' : ¬(q.1 = r ∧ q.2 = c) := by
    intro hh
    rw [pair_eq hh.1 hh.2] at hq
    exact h hq
  rw [setCell_other g r c v hp'] at hne heq
  rw [setCell_other g r c v hq'] at heq
  exact hS p hp q hq hne heq

theorem nodupOn_setCell_not_valsOn {g : Grid} {S : Finset (Fin 9 × Fin 9)} {r c : Fin 9}
    {v : Nat} (hS : NodupOn g S) (hv : v ∉ valsOn g S) : NodupOn (setCell g r c v) S := by
  intro p hp q hq hne heq
  by_cases hp' : p.1 = r ∧ p.2 = c
  · by_cases hq' : q.1 = r ∧ q.2 = c
    · rw [pair_eq hp'.1 hp'.2, pair_eq hq'.1 hq'.2]
    · have hpe : p = (r, c) := pair_eq hp'.1 hp'.2
      rw [setCell_other g r c v hq'] at heq
      rw [hpe, setCell_same] at heq
      exact absurd (heq ▸ mem_valsOn_of_mem hq) hv
  · by_cases hq' : q.1 = r ∧ q.2 = c
    · have hqe : q = (r, c) := pair_eq hq'.1 hq'.2
      rw [setCell_other g r c v hp'] at heq hne
      rw [hqe, setCell_same] at heq
      exact absurd (heq ▸ mem_valsOn_of_mem hp) hv
    · rw [setCell_other g r c v hp'] at hne heq
      rw [setCell_other g r c v hq'] at heq
      exact hS p hp q hq hne heq

theorem not_mem_rowCells_of_ne {r c r' : Fin 9} (h : r' ≠ r) : (r, c) ∉ rowCells r' :=
  fun hm => h ((mem_rowCells.mp hm).symm)

theorem not_mem_colCells_of_ne {r c c' : Fin 9} (h : c' ≠ c) : (r, c) ∉ colCells c' :=
  fun hm => h ((mem_colCells.mp hm).symm)

theorem not_mem_boxCells_of_ne {r c b' : Fin 9} (h : b' ≠ boxIndex r c) :
    (r, c) ∉ boxCells b' :=
  fun hm => h ((mem_boxCells.mp hm).symm)

theorem validG_setCell {g : Grid} {r c : Fin 9} {v : Nat} (hV : ValidG g)
    (hvr : v ∉ valsOn g (rowCells r)) (hvc : v ∉ valsOn g (colCells c))
    (hvb : v ∉ valsOn g (boxCells (boxIndex r c))) : ValidG (setCell g r c v) := by
  obtain ⟨hVr, hVc, hVb⟩ := hV
  refine ⟨fun r' => ?_, fun c' => ?_, fun b' => ?_⟩
  · by_cases h : r' = r
    · subst h
      exact nodupOn_setCell_not_valsOn (hVr r') hvr
    · exact nodupOn_setCell_not_mem (not_mem_rowCells_of_ne h) (hVr r')
  · by_cases h : c' = c
    · subst h
      exact nodupOn_setCell_not_valsOn (hVc c') hvc
    · exact nodupOn_setCell_not_mem (not_mem_colCells_of_ne h) (hVc c')
  · by_cases h : b' = boxIndex r c
    · subst h
      exact nodupOn_setCell_not_valsOn (hVb (boxIndex r c)) hvb
    · exact nodupOn_setCell_not_mem (not_mem_boxCells_of_ne h) (hVb b')

theorem inRange_setCell {g : Grid} {r c : Fin 9} {v : Nat} (h : InRange g) (hv : v ≤ 9) :
    InRange (setCell g r c v) := by
  intro r' c'
  by_cases hh : r' = r ∧ c' = c
  · simp [setCell, hh, hv]
  · rw [setCell_other g r c v hh]
    exact h r' c'

theorem stateInv_initial (g : Grid) : StateInv g (get_possible_numbers g) :=
  ⟨fun _ => rfl, fun _ => rfl, fun _ => rfl⟩

theorem subAll_of_stateInv {g : Grid} {s : PState} (h : StateInv g s) : SubAll s := by
  obtain ⟨hr, hc, hb⟩ := h
  refine ⟨fun r => ?_, fun c => ?_, fun b => ?_⟩
  · rw [hr r]
    exact Finset.sdiff_subset
  · rw [hc c]
    exact Finset.sdiff_subset
  · rw [hb b]
    exact Finset.sdiff_subset

theorem subAll_place {s s1 : PState} {r c : Fin 9} {v : Nat} (h : SubAll s)
    (hp : place s r c v = some s1) : SubAll s1 := by
  obtain ⟨-, -, -, rfl⟩ := place_eq_some hp
  obtain ⟨hr, hc, hb⟩ := h
  refine ⟨fun r' => ?_, fun c' => ?_, fun b' => ?_⟩
  · show Function.update s.rows r ((s.rows r).erase v) r' ⊆ allNumbers
    by_cases hh : r' = r
    · subst hh
      rw [Function.update_same]
      exact (Finset.erase_subset _ _).trans (hr r')
    · rw [Function.update_noteq hh]
      exact hr r'
  · show Function.update s.cols c ((s.cols c).erase v) c' ⊆ allNumbers
    by_cases hh : c' = c
    · subst hh
      rw [Function.update_same]
      exact (Finset.erase_subset _ _).trans (hc c')
    · rw [Function.update_noteq hh]
      exact hc c'
  · show Function.update s.boxes (boxIndex r c) ((s.boxes (boxIndex r c)).erase v) b'
      ⊆ allNumbers
    by_cases hh : b' = boxIndex r c
    · subst hh
      rw [Function.update_same]
      exact (Finset.erase_subset _ _).trans (hb (boxIndex r c))
    · rw [Function.update_noteq hh]
      exact hb b'

theorem stateInv_place {g : Grid} {s s1 : PState} {r c : Fin 9} {v : Nat}
    (hInv : StateInv g s) (h0 : g r c = 0) (hp : place s r c v = some s1) :
    StateInv (setCell g r c v) s1 := by
  obtain ⟨-, -, -, rfl⟩ := place_eq_some hp
  obtain ⟨hrow, hcol, hbox⟩ := hInv
  refine ⟨fun r' => ?_, fun c' => ?_, fun b' => ?_⟩
  · show Function.update s.rows r ((s.rows r).erase v) r' =
      allNumbers \ valsOn (setCell g r c v) (rowCells r')
    by_cases h : r' = r
    · subst h
      rw [Function.update_same, hrow r']
      exact erase_sdiff_valsOn_setCell (cell_mem_rowCells r' c) h0
    · rw [Function.update_noteq h, hrow r',
        valsOn_setCell_not_mem (not_mem_rowCells_of_ne h)]
  · show Function.update s.cols c ((s.cols c).erase v) c' =
      allNumbers \ valsOn (setCell g r c v) (colCells c')
    by_cases h : c' = c
    · subst h
      rw [Function.update_same, hcol c']
      exact erase_sdiff_valsOn_setCell (cell_mem_colCells r c') h0
    · rw [Function.update_noteq h, hcol c',
        valsOn_setCell_not_mem (not_mem_colCells_of_ne h)]
  · show Function.update s.boxes (boxIndex r c) ((s.boxes (boxIndex r c)).erase v) b' =
      allNumbers \ valsOn (setCell g r c v) (boxCells b')
    by_cases h : b' = boxIndex r c
    · subst h
      rw [Function.update_same, hbox (boxIndex r c)]
      exact erase_sdiff_valsOn_setCell (cell_mem_boxCells r c) h0
    · rw [Function.update_noteq h, hbox b',
        valsOn_setCell_not_mem (not_mem_boxCells_of_ne h)]

theorem stateInv_unplace {g : Grid} {s : PState} {r c : Fin 9} {v : Nat}
    (hInv : StateInv g s) (hV : ValidG g) (hval : g r c = v) (hv : v ∈ allNumbers) :
    StateInv (setCell g r c 0) (unplace s r c v) := by
  obtain ⟨hrow, hcol, hbox⟩ := hInv
  obtain ⟨hVr, hVc, hVb⟩ := hV
  have hv0 : g r c ≠ 0 := by
    have hvv := Finset.mem_Icc.mp hv
    omega
  refine ⟨fun r' => ?_, fun c' => ?_, fun b' => ?_⟩
  · show Function.update s.rows r (insert v (s.rows r)) r' =
      allNumbers \ valsOn (setCell g r c 0) (rowCells r')
    by_cases h : r' = r
    · subst h
      rw [Function.update_same, hrow r']
      exact insert_sdiff_valsOn_setCell_zero (cell_mem_rowCells r' c) hval hv
        (hval ▸ not_mem_valsOn_erase (hVr r') (cell_mem_rowCells r' c) hv0)
    · rw [Function.update_noteq h, hrow r',
        valsOn_setCell_not_mem (not_mem_rowCells_of_ne h)]
  · show Function.update s.cols c (insert v (s.cols c)) c' =
      allNumbers \ valsOn (setCell g r c 0) (colCells c')
    by_cases h : c' = c
    · subst h
      rw [Function.update_same, hcol c']
      exact insert_sdiff_valsOn_setCell_zero (cell_mem_colCells r c') hval hv
        (hval ▸ not_mem_valsOn_erase (hVc c') (cell_mem_colCells r c') hv0)
    · rw [Function.update_noteq h, hcol c',
        valsOn_setCell_not_mem (not_mem_colCells_of_ne h)]
  · show Function.update s.boxes (boxIndex r c) (insert v (s.boxes (boxIndex r c))) b' =
      allNumbers \ valsOn (setCell g r c 0) (boxCells b')
    by_cases h : b' = boxIndex r c
    · subst h
      rw [Function.update_same, hbox (boxIndex r c)]
      exact insert_sdiff_valsOn_setCell_zero (cell_mem_boxCells r c) hval hv
        (hval ▸ not_mem_valsOn_erase (hVb (boxIndex r c)) (cell_mem_boxCells r c) hv0)
    · rw [Function.update_noteq h, hbox b',
        valsOn_setCell_not_mem (not_mem_boxCells_of_ne h)]

theorem searchInv_of_stateInv {g : Grid} {s : PState} (h : StateInv g s) :
    SearchInvariant g s := by
  obtain ⟨hr, hc, hb⟩ := h
  constructor
  · intro r c hne
    refine ⟨?_, ?_, ?_⟩
    · rw [hr r]
      exact fun hm => (Finset.mem_sdiff.mp hm).2 (mem_valsOn_of_mem (cell_mem_rowCells r c))
    · rw [hc c]
      exact fun hm => (Finset.mem_sdiff.mp hm).2 (mem_valsOn_of_mem (cell_mem_colCells r c))
    · rw [hb (boxIndex r c)]
      exact fun hm => (Finset.mem_sdiff.mp hm).2 (mem_valsOn_of_mem (cell_mem_boxCells r c))
  · intro r c v _h0 hv
    rw [hr r, hc c, hb (boxIndex r c)]
    simp only [Finset.mem_sdiff, hv, true_and]

/-! Termination, restoration-on-failure and frame property of the search,
for an arbitrary (not necessarily valid) grid. -/

theorem tryCandidates_term (fuel : Nat) (r c : Fin 9) (g : Grid) (s : PState)
    (h0 : g r c = 0)
    (IH : ∀ g1 s1, numEmpty g1 < fuel → SubAll s1 →
      ∃ b g2 s2, backtrack fuel g1 s1 = Except.ok (b, g2, s2) ∧
        (b = false → g2 = g1 ∧ s2 = s1) ∧
        (∀ a d, g1 a d ≠ 0 → g2 a d = g1 a d))
    (hfuel : numEmpty g < fuel + 1) (hsub : SubAll s) :
    ∀ l, (∀ v ∈ l, v ∈ s.rows r ∧ v ∈ s.cols c ∧ v ∈ s.boxes (boxIndex r c)) →
      ∃ b g2 s2, tryCandidates (backtrack fuel) r c g s l = Except.ok (b, g2, s2) ∧
        (b = false → g2 = g ∧ s2 = s) ∧
        (∀ a d, g a d ≠ 0 → g2 a d = g a d) := by
  intro l
  induction l with
  | nil =>
    intro _
    exact ⟨false, g, s, rfl, fun _ => ⟨rfl, rfl⟩, fun a d _ => rfl⟩
  | cons v rest ih =>
    intro hmem
    obtain ⟨hv1, hv2, hv3⟩ := hmem v (List.mem_cons_self v rest)
    obtain ⟨s1, hplace⟩ : ∃ s1, place s r c v = some s1 := ⟨_, place_of_mem hv1 hv2 hv3⟩
    have hv0 : v ≠ 0 := by
      have hva := Finset.mem_Icc.mp (hsub.1 r hv1)
      omega
    have hlt : numEmpty (setCell g r c v) < fuel := by
      have := numEmpty_setCell_lt h0 hv0
      omega
    have hsub1 : SubAll s1 := subAll_place hsub hplace
    obtain ⟨b2, g2, s2, hbt, hrestore, hagree⟩ := IH (setCell g r c v) s1 hlt hsub1
    cases b2 with
    | true =>
      refine ⟨true, g2, s2, ?_, ?_, ?_⟩
      · simp only [tryCandidates, hplace, hbt]
      · intro h
        simp at h
      · intro a d hnz
        have hne : ¬(a = r ∧ d = c) := by
          intro hh
          rw [hh.1, hh.2] at hnz
          exact hnz h0
        have h1 : setCell g r c v a d = g a d := setCell_other g r c v hne
        have h2 := hagree a d (by rw [h1]; exact hnz)
        rw [h2, h1]
    | false =>
      obtain ⟨hg2, hs2⟩ := hrestore rfl
      rw [hg2, hs2] at hbt
      have e1 : setCell (setCell g r c v) r c 0 = g := by
        rw [setCell_setCell]
        exact setCell_self g r c 0 h0
      have e2 : unplace s1 r c v = s := unplace_place hplace
      obtain ⟨b3, g3, s3, htc, hres, hag⟩ :=
        ih (fun w hw => hmem w (List.mem_cons_of_mem v hw))
      refine ⟨b3, g3, s3, ?_, hres, hag⟩
      simp only [tryCandidates, hplace, hbt, e1, e2]
      exact htc

theorem backtrack_term : ∀ fuel (g : Grid) (s : PState), numEmpty g < fuel → SubAll s →
    ∃ b g2 s2, backtrack fuel g s = Except.ok (b, g2, s2) ∧
      (b = false → g2 = g ∧ s2 = s) ∧
      (∀ a d, g a d ≠ 0 → g2 a d = g a d) := by
  intro fuel
  induction fuel with
  | zero =>
    intro g s hlt _
    exact absurd hlt (Nat.not_lt_zero _)
  | succ fuel ih =>
    intro g s hlt hsub
    cases hfe : firstEmpty g with
    | none =>
      refine ⟨true, g, s, ?_, ?_, ?_⟩
      · simp only [backtrack, hfe]
      · intro h
        simp at h
      · intro a d _
        rfl
    | some p =>
      obtain ⟨r, c⟩ := p
      have h0 : g r c = 0 := firstEmpty_some hfe
      obtain ⟨b2, g2, s2, htc, hres, hag⟩ :=
        tryCandidates_term fuel r c g s h0 ih hlt hsub (candList s r c)
          (fun v hv => mem_candList.mp hv)
      refine ⟨b2, g2, s2, ?_, hres, hag⟩
      simp only [backtrack, hfe]
      exact htc

/-! Completions and candidate digits. -/

theorem completion_extend {g t : Grid} {r c : Fin 9} {v : Nat} (h : Completion g t)
    (h0 : g r c = 0) (htv : t r c = v) : Completion (setCell g r c v) t := by
  obtain ⟨hag, hrange, hVt⟩ := h
  refine ⟨?_, hrange, hVt⟩
  intro a d hne
  by_cases hh : a = r ∧ d = c
  · obtain ⟨rfl, rfl⟩ := hh
    rw [setCell_same]
    exact htv
  · rw [setCell_other g r c v hh] at hne ⊢
    exact hag a d hne

theorem completion_restrict {g t : Grid} {r c : Fin 9} {v : Nat}
    (h : Completion (setCell g r c v) t) (h0 : g r c = 0) : Completion g t := by
  obtain ⟨hag, hrange, hVt⟩ := h
  refine ⟨?_, hrange, hVt⟩
  intro a d hne
  have hh : ¬(a = r ∧ d = c) := by
    intro hh
    rw [hh.1, hh.2] at hne
    exact hne h0
  have hcell := hag a d (by rw [setCell_other g r c v hh]; exact hne)
  rw [setCell_other g r c v hh] at hcell
  exact hcell

theorem not_mem_valsOn_of_completion {g t : Grid} {S : Finset (Fin 9 × Fin 9)}
    {r c : Fin 9} (hag : ∀ a d, g a d ≠ 0 → t a d = g a d) (hNt : NodupOn t S)
    (hmem : (r, c) ∈ S) (h0 : g r c = 0) (hne : t r c ≠ 0) : t r c ∉ valsOn g S := by
  intro hm
  obtain ⟨q, hq, hgq⟩ := Finset.mem_image.mp hm
  have hgq0 : g q.1 q.2 ≠ 0 := by
    rw [hgq]
    exact hne
  have htq : t q.1 q.2 = t r c := by
    rw [hag q.1 q.2 hgq0, hgq]
  have hqe : q = (r, c) := hNt q hq (r, c) hmem (by rw [htq]; exact hne) (by rw [htq])
  rw [hqe] at hgq
  exact hne (hgq.symm.trans h0)

theorem candidate_of_completion {g t : Grid} {s : PState} {r c : Fin 9}
    (hInv : StateInv g s) (hcomp : Completion g t) (h0 : g r c = 0) :
    t r c ∈ s.rows r ∧ t r c ∈ s.cols c ∧ t r c ∈ s.boxes (boxIndex r c) := by
  obtain ⟨hag, hrange, hVt⟩ := hcomp
  obtain ⟨hr, hc, hb⟩ := hInv
  have hv : t r c ∈ allNumbers := hrange r c
  have hne : t r c ≠ 0 := by
    have hvv := Finset.mem_Icc.mp hv
    omega
  refine ⟨?_, ?_, ?_⟩
  · rw [hr r]
    exact Finset.mem_sdiff.mpr ⟨hv,
      not_mem_valsOn_of_completion hag (hVt.1 r) (cell_mem_rowCells r c) h0 hne⟩
  · rw [hc c]
    exact Finset.mem_sdiff.mpr ⟨hv,
      not_mem_valsOn_of_completion hag (hVt.2.1 c) (cell_mem_colCells r c) h0 hne⟩
  · rw [hb (boxIndex r c)]
    exact Finset.mem_sdiff.mpr ⟨hv,
      not_mem_valsOn_of_completion hag (hVt.2.2 (boxIndex r c)) (cell_mem_boxCells r c)
        h0 hne⟩

/-! Full functional correctness of the search on valid grids. -/

theorem tryCandidates_spec (fuel : Nat) (r c : Fin 9) (g : Grid) (s : PState)
    (h0 : g r c = 0) (hInv : StateInv g s) (hVal : ValidG g) (hRan : InRange g)
    (IH : ∀ g1 s1, numEmpty g1 < fuel → StateInv g1 s1 → ValidG g1 → InRange g1 →
      ∃ b g2 s2, backtrack fuel g1 s1 = Except.ok (b, g2, s2) ∧
        (b = true → Completion g1 g2) ∧
        (b = false → ∀ t, ¬ Completion g1 t))
    (hfuel : numEmpty g < fuel + 1) :
    ∀ l, (∀ v ∈ l, v ∈ s.rows r ∧ v ∈ s.cols c ∧ v ∈ s.boxes (boxIndex r c)) →
      ∃ b g2 s2, tryCandidates (backtrack fuel) r c g s l = Except.ok (b, g2, s2) ∧
        (b = true → Completion g g2) ∧
        (b = false → g2 = g ∧ s2 = s ∧
          ∀ v ∈ l, ∀ t, Completion g t → t r c ≠ v) := by
  intro l
  induction l with
  | nil =>
    intro _
    refine ⟨false, g, s, rfl, ?_, ?_⟩
    · intro h
      simp at h
    · intro _
      exact ⟨rfl, rfl, fun w hw => absurd hw (List.not_mem_nil w)⟩
  | cons v rest ih =>
    intro hmem
    obtain ⟨hv1, hv2, hv3⟩ := hmem v (List.mem_cons_self v rest)
    obtain ⟨s1, hplace⟩ : ∃ s1, place s r c v = some s1 := ⟨_, place_of_mem hv1 hv2 hv3⟩
    have hvA : v ∈ allNumbers ∧ v ∉ valsOn g (rowCells r) := by
      have hh := hv1
      rw [hInv.1 r] at hh
      exact Finset.mem_sdiff.mp hh
    have hvC : v ∉ valsOn g (colCells c) := by
      have hh := hv2
      rw [hInv.2.1 c] at hh
      exact (Finset.mem_sdiff.mp hh).2
    have hvB : v ∉ valsOn g (boxCells (boxIndex r c)) := by
      have hh := hv3
      rw [hInv.2.2 (boxIndex r c)] at hh
      exact (Finset.mem_sdiff.mp hh).2
    have hv9 : 1 ≤ v ∧ v ≤ 9 := Finset.mem_Icc.mp hvA.1
    have hv0 : v ≠ 0 := by omega
    have hInv1 : StateInv (setCell g r c v) s1 := stateInv_place hInv h0 hplace
    have hVal1 : ValidG (setCell g r c v) := validG_setCell hVal hvA.2 hvC hvB
    have hRan1 : InRange (setCell g r c v) := inRange_setCell hRan hv9.2
    have hlt : numEmpty (setCell g r c v) < fuel := by
      have hdec := numEmpty_setCell_lt h0 hv0
      omega
    obtain ⟨b2, g2, s2, hbt, hT, hF⟩ := IH (setCell g r c v) s1 hlt hInv1 hVal1 hRan1
    obtain ⟨b2', g2', s2', hbt', hres', -⟩ :=
      backtrack_term fuel (setCell g r c v) s1 hlt (subAll_of_stateInv hInv1)
    have hdet := hbt.symm.trans hbt'
    simp only [Except.ok.injEq, Prod.mk.injEq] at hdet
    obtain ⟨rfl, rfl, rfl⟩ := hdet
    cases b2 with
    | true =>
      refine ⟨true, g2, s2, ?_, ?_, ?_⟩
      · simp only [tryCandidates, hplace, hbt]
      · intro _
        exact completion_restrict (hT rfl) h0
      · intro h
        simp at h
    | false =>
      obtain ⟨hg2, hs2⟩ := hres' rfl
      rw [hg2, hs2] at hbt
      have e1 : setCell (setCell g r c v) r c 0 = g := by
        rw [setCell_setCell]
        exact setCell_self g r c 0 h0
      have e2 : unplace s1 r c v = s := unplace_place hplace
      obtain ⟨b3, g3, s3, htc, hT3, hF3⟩ :=
        ih (fun w hw => hmem w (List.mem_cons_of_mem v hw))
      refine ⟨b3, g3, s3, ?_, hT3, ?_⟩
      · simp only [tryCandidates, hplace, hbt, e1, e2]
        exact htc
      · intro hb3
        obtain ⟨hg3, hs3, hall⟩ := hF3 hb3
        refine ⟨hg3, hs3, ?_⟩
        intro w hw t hcomp hwv
        rcases List.mem_cons.mp hw with rfl | hwrest
        · exact hF rfl t (completion_extend hcomp h0 hwv)
        · exact hall w hwrest t hcomp hwv

theorem backtrack_spec : ∀ fuel (g : Grid) (s : PState), numEmpty g < fuel →
    StateInv g s → ValidG g → InRange g →
    ∃ b g2 s2, backtrack fuel g s = Except.ok (b, g2, s2) ∧
      (b = true → Completion g g2) ∧
      (b = false → ∀ t, ¬ Completion g t) := by
  intro fuel
  induction fuel with
  | zero =>
    intro g s hlt _ _ _
    exact absurd hlt (Nat.not_lt_zero _)
  | succ fuel ih =>
    intro g s hlt hInv hVal hRan
    cases hfe : firstEmpty g with
    | none =>
      refine ⟨true, g, s, by simp only [backtrack, hfe], ?_, ?_⟩
      · intro _
        refine ⟨fun a d _ => rfl, ?_, hVal⟩
        intro a d
        have h1 := firstEmpty_none hfe a d
        have h2 := hRan a d
        exact Finset.mem_Icc.mpr (by omega)
      · intro h
        simp at h
    | some p =>
      obtain ⟨r, c⟩ := p
      have h0 : g r c = 0 := firstEmpty_some hfe
      obtain ⟨b2, g2, s2, htc, hT, hF⟩ :=
        tryCandidates_spec fuel r c g s h0 hInv hVal hRan ih hlt (candList s r c)
          (fun v hv => mem_candList.mp hv)
      refine ⟨b2, g2, s2, ?_, hT, ?_⟩
      · simp only [backtrack, hfe]
        exact htc
      · intro hb t hcomp
        obtain ⟨-, -, hall⟩ := hF hb
        have hcand := candidate_of_completion hInv hcomp h0
        exact hall (t r c) (mem_candList.mpr hcand) t hcomp rfl

/-! The list-based duplicate test of is_valid_initial_sudoku agrees with the
positional no-duplicate predicate. -/

theorem nodupCheck_iff {l : List Nat} : nodupCheck l = true ↔ l.Nodup := by
  unfold nodupCheck
  rw [beq_iff_eq]
  constructor
  · intro h
    have hsub := l.dedup_sublist
    have heq := hsub.eq_of_length h
    rw [← heq]
    exact l.nodup_dedup
  · intro h
    rw [List.dedup_eq_self.mpr h]

theorem nodup_filtered_map_iff {α : Type} (l : List α) (f : α → Nat)
    (hl : l.Nodup) (hfull : ∀ a : α, a ∈ l) :
    ((l.map f).filter fun n => n != 0).Nodup ↔
      ∀ a b : α, f a ≠ 0 → f a = f b → a = b := by
  rw [List.filter_map]
  have hnd : (l.filter ((fun n => n != 0) ∘ f)).Nodup := hl.filter _
  rw [List.nodup_map_iff_inj_on hnd]
  constructor
  · intro h a b ha heq
    have hb : f b ≠ 0 := by
      rw [← heq]
      exact ha
    refine h a ?_ b ?_ heq
    · rw [List.mem_filter]
      refine ⟨hfull a, ?_⟩
      simpa using ha
    · rw [List.mem_filter]
      refine ⟨hfull b, ?_⟩
      simpa using hb
  · intro h x hx y _hy heq
    have hx0 : f x ≠ 0 := by
      have hxf := (List.mem_filter.mp hx).2
      simpa using hxf
    exact h x y hx0 heq

theorem rowNums_nodup_iff {g : Grid} {i : Fin 9} :
    (rowNums g i).Nodup ↔ NodupOn g (rowCells i) := by
  unfold rowNums
  rw [nodup_filtered_map_iff (List.finRange 9) (fun j => g i j) (List.nodup_finRange 9)
    (fun a => List.mem_finRange a)]
  constructor
  · intro h p hp q hq hne heq
    have hp1 : p.1 = i := mem_rowCells.mp hp
    have hq1 : q.1 = i := mem_rowCells.mp hq
    rw [hp1] at hne heq
    rw [hq1] at heq
    exact Prod.ext (hp1.trans hq1.symm) (h p.2 q.2 hne heq)
  · intro h a b ha heq
    exact congrArg Prod.snd
      (h (i, a) (cell_mem_rowCells i a) (i, b) (cell_mem_rowCells i b) ha heq)

theorem colNums_nodup_iff {g : Grid} {j : Fin 9} :
    (colNums g j).Nodup ↔ NodupOn g (colCells j) := by
  unfold colNums
  rw [nodup_filtered_map_iff (List.finRange 9) (fun i => g i j) (List.nodup_finRange 9)
    (fun a => List.mem_finRange a)]
  constructor
  · intro h p hp q hq hne heq
    have hp2 : p.2 = j := mem_colCells.mp hp
    have hq2 : q.2 = j := mem_colCells.mp hq
    rw [hp2] at hne heq
    rw [hq2] at heq
    exact Prod.ext (h p.1 q.1 hne heq) (hp2.trans hq2.symm)
  · intro h a b ha heq
    exact congrArg Prod.fst
      (h (a, j) (cell_mem_colCells a j) (b, j) (cell_mem_colCells b j) ha heq)

theorem boxCell_inj {b : Fin 9} {q1 q2 : Fin 3 × Fin 3} (h : boxCell b q1 = boxCell b q2) :
    q1 = q2 := by
  have h1 := congrArg (fun p => (Prod.fst p).val) h
  have h2 := congrArg (fun p => (Prod.snd p).val) h
  simp only [boxCell] at h1 h2
  obtain ⟨⟨a1, ha1⟩, ⟨a2, ha2⟩⟩ := q1
  obtain ⟨⟨a3, ha3⟩, ⟨a4, ha4⟩⟩ := q2
  simp only at h1 h2
  have e1 : a1 = a3 := by omega
  have e2 : a2 = a4 := by omega
  subst e1
  subst e2
  rfl

theorem boxNums_nodup_iff {g : Grid} {b : Fin 9} :
    (boxNums g b).Nodup ↔ NodupOn g (boxCells b) := by
  unfold boxNums
  rw [nodup_filtered_map_iff ((List.finRange 3).flatMap fun i => (List.finRange 3).map
    fun j => (i, j)) (fun q => g (boxCell b q).1 (boxCell b q).2) (by decide) (by decide)]
  constructor
  · intro h p hp q hq hne heq
    obtain ⟨qp, -, hqp⟩ := Finset.mem_image.mp hp
    obtain ⟨qq, -, hqq⟩ := Finset.mem_image.mp hq
    rw [← hqp] at hne heq ⊢
    rw [← hqq] at heq ⊢
    rw [h qp qq hne heq]
  · intro h q1 q2 hne heq
    have hm1 : boxCell b q1 ∈ boxCells b := Finset.mem_image_of_mem _ (Finset.mem_univ q1)
    have hm2 : boxCell b q2 ∈ boxCells b := Finset.mem_image_of_mem _ (Finset.mem_univ q2)
    exact boxCell_inj (h (boxCell b q1) hm1 (boxCell b q2) hm2 hne heq)

theorem is_valid_iff_validG (g : Grid) : is_valid_initial_sudoku g = true ↔ ValidG g := by
  unfold is_valid_initial_sudoku
  rw [Bool.and_eq_true, Bool.and_eq_true]
  rw [List.all_eq_true, List.all_eq_true, List.all_eq_true]
  constructor
  · rintro ⟨⟨hr, hc⟩, hb⟩
    refine ⟨fun i => ?_, fun j => ?_, fun b => ?_⟩
    · exact rowNums_nodup_iff.mp (nodupCheck_iff.mp (hr i (List.mem_finRange i)))
    · exact colNums_nodup_iff.mp (nodupCheck_iff.mp (hc j (List.mem_finRange j)))
    · exact boxNums_nodup_iff.mp (nodupCheck_iff.mp (hb b (List.mem_finRange b)))
  · rintro ⟨hr, hc, hb⟩
    refine ⟨⟨fun i _ => ?_, fun j _ => ?_⟩, fun b _ => ?_⟩
    · exact nodupCheck_iff.mpr (rowNums_nodup_iff.mpr (hr i))
    · exact nodupCheck_iff.mpr (colNums_nodup_iff.mpr (hc j))
    · exact nodupCheck_iff.mpr (boxNums_nodup_iff.mpr (hb b))

/-! Each region of a filled valid grid holds every digit exactly once. -/

theorem rowCells_card (r : Fin 9) : (rowCells r).card = 9 := by
  unfold rowCells
  rw [Finset.card_image_of_injective Finset.univ
    (fun a b h => (congrArg Prod.snd h : a = b))]
  simp

theorem colCells_card (c : Fin 9) : (colCells c).card = 9 := by
  unfold colCells
  rw [Finset.card_image_of_injective Finset.univ
    (fun a b h => (congrArg Prod.fst h : a = b))]
  simp

theorem boxCells_card (b : Fin 9) : (boxCells b).card = 9 := by
  unfold boxCells
  rw [Finset.card_image_of_injective Finset.univ (fun q1 q2 h => boxCell_inj h)]
  simp

theorem region_exactly_one {g : Grid} {S : Finset (Fin 9 × Fin 9)}
    (hnd : NodupOn g S) (hcard : S.card = 9)
    (hrange : ∀ p ∈ S, g p.1 p.2 ∈ allNumbers) :
    ∀ d ∈ allNumbers, (S.filter fun p => g p.1 p.2 = d).card = 1 := by
  have hinj : Set.InjOn (fun p : Fin 9 × Fin 9 => g p.1 p.2) S := by
    intro p hp q hq heq
    have hp' := Finset.mem_coe.mp hp
    have hq' := Finset.mem_coe.mp hq
    have h9 := Finset.mem_Icc.mp (hrange p hp')
    exact hnd p hp' q hq' (by omega) heq
  have hcardv : (valsOn g S).card = 9 := by
    rw [valsOn, Finset.card_image_of_injOn hinj, hcard]
  have himg : valsOn g S = allNumbers := by
    apply Finset.eq_of_subset_of_card_le
    · intro x hx
      obtain ⟨p, hp, hpe⟩ := Finset.mem_image.mp hx
      rw [← hpe]
      exact hrange p hp
    · rw [hcardv]
      simp [allNumbers, Nat.card_Icc]
  intro d hd
  have hdm : d ∈ valsOn g S := himg ▸ hd
  obtain ⟨p, hp, hpd⟩ := Finset.mem_image.mp hdm
  rw [Finset.card_eq_one]
  refine ⟨p, ?_⟩
  ext q
  simp only [Finset.mem_filter, Finset.mem_singleton]
  constructor
  · rintro ⟨hq, hqd⟩
    refine hinj (Finset.mem_coe.mpr hq) (Finset.mem_coe.mpr hp) ?_
    show g q.1 q.2 = g p.1 p.2
    rw [hqd, hpd]
  · rintro rfl
    exact ⟨hp, hpd⟩

theorem sdiff_filter_ne_zero (X : Finset Nat) :
    allNumbers \ X = Finset.Icc 1 9 \ (X.filter fun n => n ≠ 0) := by
  ext d
  constructor
  · intro hd
    obtain ⟨h1, h2⟩ := Finset.mem_sdiff.mp hd
    refine Finset.mem_sdiff.mpr ⟨h1, ?_⟩
    intro hf
    exact h2 (Finset.mem_filter.mp hf).1
  · intro hd
    obtain ⟨h1, h2⟩ := Finset.mem_sdiff.mp hd
    refine Finset.mem_sdiff.mpr ⟨h1, ?_⟩
    intro hx
    apply h2
    refine Finset.mem_filter.mpr ⟨hx, ?_⟩
    have h9 := Finset.mem_Icc.mp h1
    omega

/-! Theorems settling the claims. -/

/-- C7: get_possible_numbers returns, for each of the 9 rows, columns and
boxes, exactly the set of digits 1-9 minus the non-zero digits currently
present in that row, column or box; it is a pure function of the grid (no
validation, no mutation). -/
theorem get_possible_numbers_spec (g : Grid) :
    (∀ r, (get_possible_numbers g).rows r =
      Finset.Icc 1 9 \ ((valsOn g (rowCells r)).filter fun n => n ≠ 0)) ∧
    (∀ c, (get_possible_numbers g).cols c =
      Finset.Icc 1 9 \ ((valsOn g (colCells c)).filter fun n => n ≠ 0)) ∧
    (∀ b, (get_possible_numbers g).boxes b =
      Finset.Icc 1 9 \ ((valsOn g (boxCells b)).filter fun n => n ≠ 0)) :=
  ⟨fun r => sdiff_filter_ne_zero (valsOn g (rowCells r)),
   fun c => sdiff_filter_ne_zero (valsOn g (colCells c)),
   fun b => sdiff_filter_ne_zero (valsOn g (boxCells b))⟩

/-- C8: is_valid_initial_sudoku returns true exactly when in every row,
column and box the non-zero digits are pairwise distinct (zeros are ignored);
it is a pure function and does not modify the grid. -/
theorem is_valid_initial_sudoku_spec (g : Grid) :
    is_valid_initial_sudoku g = true ↔
      ((∀ r, NodupOn g (rowCells r)) ∧ (∀ c, NodupOn g (colCells c)) ∧
        (∀ b, NodupOn g (boxCells b))) :=
  is_valid_iff_validG g

/-- C9: whenever Place succeeds (the three set.remove calls find their
element), Unplace restores exactly the original possibility state. -/
theorem place_unplace_inverse (s : PState) (r c : Fin 9) (v : Nat) (s1 : PState)
    (h : place s r c v = some s1) : unplace s1 r c v = s :=
  unplace_place h

/-- C6: solve_sudoku terminates on every 9×9 grid of integers in {0..9}; the
fuel 82, one more than the 81 possible empty cells, is never exhausted since
each recursive call strictly decreases the number of empty cells. -/
theorem solve_sudoku_terminates (g : Grid) (_hR : InRange g) :
    ∃ b g2, solve_sudoku g = Except.ok (b, g2) := by
  obtain ⟨b, g2, s2, hbt, -, -⟩ := backtrack_term 82 g (get_possible_numbers g)
    (by have h81 := numEmpty_le g; omega) (subAll_of_stateInv (stateInv_initial g))
  exact ⟨b, g2, by simp [solve_sudoku, hbt, Except.map]⟩

/-- C10: during the search every set.remove call succeeds: the KeyError
branch of the embedded remove is unreachable, because each tried digit is a
member of all three possibility sets when it is removed. -/
theorem backtrack_remove_safe (g : Grid) :
    solve_sudoku g ≠ Except.error SErr.keyError := by
  obtain ⟨b, g2, s2, hbt, -, -⟩ := backtrack_term 82 g (get_possible_numbers g)
    (by have h81 := numEmpty_le g; omega) (subAll_of_stateInv (stateInv_initial g))
  simp [solve_sudoku, hbt, Except.map]

/-- C3: whenever solve_sudoku reports failure, the grid it leaves behind is
cell-for-cell the grid it was given: every tentatively placed digit has been
removed. -/
theorem solve_sudoku_restores_on_failure (g g2 : Grid)
    (h : solve_sudoku g = Except.ok (false, g2)) : g2 = g := by
  obtain ⟨b, g3, s3, hbt, hres, -⟩ := backtrack_term 82 g (get_possible_numbers g)
    (by have h81 := numEmpty_le g; omega) (subAll_of_stateInv (stateInv_initial g))
  rw [solve_sudoku, hbt] at h
  simp only [Except.map, Except.ok.injEq, Prod.mk.injEq] at h
  obtain ⟨hb, hg⟩ := h
  rw [← hg]
  exact (hres hb).1

/-- C4: solve_sudoku writes only to cells that were 0: every cell that is
non-zero in the input keeps its value in the grid left behind, whether the
search succeeds or fails. -/
theorem solve_sudoku_preserves_clues (g : Grid) (b : Bool) (g2 : Grid)
    (h : solve_sudoku g = Except.ok (b, g2)) :
    ∀ r c, g r c ≠ 0 → g2 r c = g r c := by
  obtain ⟨b3, g3, s3, hbt, -, hag⟩ := backtrack_term 82 g (get_possible_numbers g)
    (by have h81 := numEmpty_le g; omega) (subAll_of_stateInv (stateInv_initial g))
  rw [solve_sudoku, hbt] at h
  simp only [Except.map, Except.ok.injEq, Prod.mk.injEq] at h
  obtain ⟨-, hg⟩ := h
  rw [← hg]
  exact hag

/-- C1: on a grid of digits 0-9 accepted by is_valid_initial_sudoku,
solve_sudoku returns true exactly when some completion of the zero cells
with digits 1-9 satisfies the row, column and box uniqueness constraints,
and returns false (leaving the grid unchanged) exactly when none exists. -/
theorem solve_sudoku_iff_completion (g : Grid) (hR : InRange g)
    (hV : is_valid_initial_sudoku g = true) :
    ((∃ g2, solve_sudoku g = Except.ok (true, g2)) ↔ (∃ t, Completion g t)) ∧
    (solve_sudoku g = Except.ok (false, g) ↔ ¬ ∃ t, Completion g t) := by
  have hVal : ValidG g := (is_valid_iff_validG g).mp hV
  obtain ⟨b, g2, s2, hbt, hT, hF⟩ := backtrack_spec 82 g (get_possible_numbers g)
    (by have h81 := numEmpty_le g; omega) (stateInv_initial g) hVal hR
  obtain ⟨b', g2', s2', hbt', hres', -⟩ := backtrack_term 82 g (get_possible_numbers g)
    (by have h81 := numEmpty_le g; omega) (subAll_of_stateInv (stateInv_initial g))
  have hdet := hbt.symm.trans hbt'
  simp only [Except.ok.injEq, Prod.mk.injEq] at hdet
  obtain ⟨rfl, rfl, rfl⟩ := hdet
  have hsolve : solve_sudoku g = Except.ok (b, g2) := by
    simp [solve_sudoku, hbt, Except.map]
  cases b with
  | true =>
    constructor
    · constructor
      · intro _
        exact ⟨g2, hT rfl⟩
      · intro _
        exact ⟨g2, hsolve⟩
    · constructor
      · intro hfalse
        rw [hsolve] at hfalse
        simp at hfalse
      · intro hno
        exact absurd ⟨g2, hT rfl⟩ hno
  | false =>
    obtain ⟨hg2, -⟩ := hres' rfl
    subst hg2
    constructor
    · constructor
      · rintro ⟨g3, hok⟩
        rw [hsolve] at hok
        simp at hok
      · rintro ⟨t, ht⟩
        exact absurd ht (hF rfl t)
    · constructor
      · intro _
        rintro ⟨t, ht⟩
        exact hF rfl t ht
      · intro _
        exact hsolve

/-- C2: on a grid of digits 0-9 accepted by is_valid_initial_sudoku, if
solve_sudoku returns true then the resulting grid has no zero cell and each
row, column and box holds every digit 1-9 exactly once. -/
theorem solve_sudoku_valid_output (g g2 : Grid) (hR : InRange g)
    (hV : is_valid_initial_sudoku g = true)
    (h : solve_sudoku g = Except.ok (true, g2)) :
    (∀ r c, g2 r c ≠ 0) ∧
    (∀ r, ∀ d ∈ allNumbers, ((rowCells r).filter fun p => g2 p.1 p.2 = d).card = 1) ∧
    (∀ c, ∀ d ∈ allNumbers, ((colCells c).filter fun p => g2 p.1 p.2 = d).card = 1) ∧
    (∀ b, ∀ d ∈ allNumbers, ((boxCells b).filter fun p => g2 p.1 p.2 = d).card = 1) := by
  have hVal : ValidG g := (is_valid_iff_validG g).mp hV
  obtain ⟨b, g3, s3, hbt, hT, -⟩ := backtrack_spec 82 g (get_possible_numbers g)
    (by have h81 := numEmpty_le g; omega) (stateInv_initial g) hVal hR
  rw [solve_sudoku, hbt] at h
  simp only [Except.map, Except.ok.injEq, Prod.mk.injEq] at h
  obtain ⟨hb, hg⟩ := h
  subst hb
  subst hg
  obtain ⟨hag, hrange, hVt⟩ := hT rfl
  refine ⟨?_, ?_, ?_, ?_⟩
  · intro r c
    have h9 := Finset.mem_Icc.mp (hrange r c)
    omega
  · intro r
    exact region_exactly_one (hVt.1 r) (rowCells_card r) (fun p _ => hrange p.1 p.2)
  · intro c
    exact region_exactly_one (hVt.2.1 c) (colCells_card c) (fun p _ => hrange p.1 p.2)
  · intro b
    exact region_exactly_one (hVt.2.2 b) (boxCells_card b) (fun p _ => hrange p.1 p.2)

/-- C5: the possibility state built by get_possible_numbers satisfies the
search invariant, and the invariant is preserved by every Place at an empty
cell and by every Unplace that undoes such a placement: filled cells are
absent from their three sets, and a digit is in all three sets of an empty
cell exactly when placing it there violates no constraint. -/
theorem search_invariant_maintained (g : Grid) (s : PState) (r c : Fin 9) (v : Nat)
    (hInv : StateInv g s) (hVal : ValidG g) :
    SearchInvariant g s ∧
    (∀ s1, g r c = 0 → place s r c v = some s1 →
      SearchInvariant (setCell g r c v) s1) ∧
    (g r c = v → v ∈ allNumbers → SearchInvariant (setCell g r c 0) (unplace s r c v)) := by
  refine ⟨searchInv_of_stateInv hInv, ?_, ?_⟩
  · intro s1 h0 hp
    exact searchInv_of_stateInv (stateInv_place hInv h0 hp)
  · intro hval hv
    exact searchInv_of_stateInv (stateInv_unplace hInv hVal hval hv)

/-! Concrete runs of the solver used by the witnesses. -/

theorem solve_demoSolved : solve_sudoku demoSolved = Except.ok (true, demoSolved) := by
  have h2 : firstEmpty demoSolved = none := by decide
  simp only [solve_sudoku, backtrack, h2, Except.map]

theorem solve_demoFail : solve_sudoku demoFail = Except.ok (false, demoFail) := by
  have h2 : firstEmpty demoFail = some (0, 8) := by decide
  have h1 : candidates (get_possible_numbers demoFail) 0 8 = ∅ := by decide
  rw [solve_sudoku, show (82 : Nat) = 81 + 1 from rfl, backtrack, h2]
  simp only [candList, h1, Finset.sort_empty, tryCandidates, Except.map]

theorem validG_demoZero : ValidG demoZero :=
  ⟨fun _ _p _ _q _ h0 _ => absurd rfl h0, fun _ _p _ _q _ h0 _ => absurd rfl h0,
   fun _ _p _ _q _ h0 _ => absurd rfl h0⟩

theorem inRange_demoZero : InRange demoZero := by
  unfold InRange
  decide

theorem inRange_demoSolved : InRange demoSolved := by
  unfold InRange demoSolved
  decide

/-! Witnesses: each claim theorem with a hypothesis applied at a concrete
input, with the hypotheses discharged there. -/

theorem solve_sudoku_iff_completion_witness :
    ((∃ g2, solve_sudoku demoZero = Except.ok (true, g2)) ↔
      (∃ t, Completion demoZero t)) ∧
    (solve_sudoku demoZero = Except.ok (false, demoZero) ↔
      ¬ ∃ t, Completion demoZero t) :=
  solve_sudoku_iff_completion demoZero inRange_demoZero (by decide)

theorem solve_sudoku_valid_output_witness :
    (∀ r c, demoSolved r c ≠ 0) ∧
    (∀ r, ∀ d ∈ allNumbers,
      ((rowCells r).filter fun p => demoSolved p.1 p.2 = d).card = 1) ∧
    (∀ c, ∀ d ∈ allNumbers,
      ((colCells c).filter fun p => demoSolved p.1 p.2 = d).card = 1) ∧
    (∀ b, ∀ d ∈ allNumbers,
      ((boxCells b).filter fun p => demoSolved p.1 p.2 = d).card = 1) :=
  solve_sudoku_valid_output demoSolved demoSolved inRange_demoSolved (by decide)
    solve_demoSolved

theorem solve_sudoku_restores_on_failure_witness :
    solve_sudoku demoFail = Except.ok (false, demoFail) ∧ demoFail = demoFail :=
  ⟨solve_demoFail, solve_sudoku_restores_on_failure demoFail demoFail solve_demoFail⟩

theorem solve_sudoku_preserves_clues_witness :
    solve_sudoku demoSolved = Except.ok (true, demoSolved) ∧
    (∀ r c, demoSolved r c ≠ 0 → demoSolved r c = demoSolved r c) :=
  ⟨solve_demoSolved,
   solve_sudoku_preserves_clues demoSolved true demoSolved solve_demoSolved⟩

theorem search_invariant_maintained_witness :
    SearchInvariant demoZero demoState ∧
    (∀ s1, demoZero 0 0 = 0 → place demoState 0 0 1 = some s1 →
      SearchInvariant (setCell demoZero 0 0 1) s1) ∧
    (demoZero 0 0 = 1 → (1 : Nat) ∈ allNumbers →
      SearchInvariant (setCell demoZero 0 0 0) (unplace demoState 0 0 1)) :=
  search_invariant_maintained demoZero demoState 0 0 1 (stateInv_initial demoZero)
    validG_demoZero

theorem solve_sudoku_terminates_witness :
    InRange demoZero ∧ ∃ b g2, solve_sudoku demoZero = Except.ok (b, g2) :=
  ⟨inRange_demoZero, solve_sudoku_terminates demoZero inRange_demoZero⟩

theorem place_unplace_inverse_witness :
    place demoState 0 0 1 = some demoState1 ∧ unplace demoState1 0 0 1 = demoState := by
  have hp : place demoState 0 0 1 = some demoState1 :=
    place_of_mem (by decide) (by decide) (by decide)
  exact ⟨hp, place_unplace_inverse demoState 0 0 1 demoState1 hp⟩
